import Mathlib

/-!
Shallow embedding of the ordermaster order-book aggregator (Rust sources in
src/): the data model of `src/orderbook.rs`, the Binance decoder of
`src/binance.rs`, and the initial broadcaster value of `src/ordermaster.rs`.

Modelling conventions:
* `rust_decimal::Decimal` is modelled as `ℚ`; `Ord` on `Decimal` is the
  numeric order, embedded as `qcmp` below.
* `Vec<T>` is `List T`; `BTreeMap<Decimal, Level>` is a key-sorted
  association list `List (ℚ × Level)`.
* `Vec::sort_unstable` sorts ascending by `Ord::cmp`; the relative order of
  elements comparing `Equal` is unspecified in Rust, so any comparison sort
  consistent with `cmp` is a faithful model.  We use an insertion sort
  (`sortLevels`).
* `tungstenite::Message` is the inductive `Message`; the serde_json
  deserializer of `binance::parse` is an external library call and is taken
  as an arbitrary function parameter.
-/

namespace OrderMaster

/-- Constant `DEPTH` from src/lib.rs line 9. -/
def DEPTH : Nat := 10

/-- Enum `orderbook::Exchange`. -/
inductive Exchange where
  | bitstamp
  | binance
deriving DecidableEq, Repr

/-- Enum `orderbook::Side`. -/
inductive Side where
  | bid
  | ask
deriving DecidableEq, Repr

/-- Struct `orderbook::Level`. -/
structure Level where
  side : Side
  price : ℚ
  amount : ℚ
  exchange : Exchange
deriving DecidableEq, Repr

/-- Numeric comparison on `ℚ`, the model of `Ord` on `rust_decimal::Decimal`. -/
def qcmp (a b : ℚ) : Ordering :=
  if a < b then .lt else if a = b then .eq else .gt

/-- Embeds `impl Ord for Level` (src/orderbook.rs lines 64-72): compare by price,
and on a price tie by amount — ascending for the bid side, descending
(`.reverse()`) for the ask side.  The exchange field is not consulted. -/
def Level.cmp (l other : Level) : Ordering :=
  match qcmp l.price other.price, l.side with
  | .eq, .bid => qcmp l.amount other.amount
  | .eq, .ask => (qcmp l.amount other.amount).swap
  | ord, _ => ord

/-- Insertion step: `Vec::sort_unstable` places an element before the first existing element
it does not compare `Greater` to. -/
def insertLe (x : Level) : List Level → List Level
  | [] => [x]
  | y :: ys =>
    if Level.cmp x y = Ordering.gt then y :: insertLe x ys else x :: y :: ys

/-- Model of `Vec::sort_unstable` with `Level`'s `Ord`: a comparison sort,
ascending. -/
def sortLevels : List Level → List Level
  | [] => []
  | x :: xs => insertLe x (sortLevels xs)

/-- Struct `orderbook::InTick`. -/
structure InTick where
  exchange : Exchange
  bids : List Level
  asks : List Level
deriving DecidableEq, Repr

/-- Struct `orderbook::OutTick`. -/
structure OutTick where
  spread : ℚ
  bids : List Level
  asks : List Level
deriving DecidableEq, Repr

/-- Constructor `OutTick::new` (src/orderbook.rs lines 25-33): default spread (zero) and
empty sides. -/
def OutTick.new : OutTick :=
  { spread := 0, bids := [], asks := [] }

/-- Struct `orderbook::OrderDepths`. -/
structure OrderDepths where
  bids : List Level
  asks : List Level
deriving DecidableEq, Repr

/-- Constructor `OrderDepths::new`. -/
def OrderDepths.new : OrderDepths :=
  { bids := [], asks := [] }

/-- Struct `orderbook::Exchanges`: the aggregator state, one `OrderDepths` per
exchange. -/
structure Exchanges where
  bitstamp : OrderDepths
  binance : OrderDepths
deriving DecidableEq, Repr

/-- Constructor `Exchanges::new`. -/
def Exchanges.new : Exchanges :=
  { bitstamp := OrderDepths.new, binance := OrderDepths.new }

/-- Function `Merge::merge for Vec<Level>` (src/orderbook.rs lines 119-126):
concatenate the two lists and `sort_unstable`. -/
def merge (self other : List Level) : List Level :=
  sortLevels (self ++ other)

/-- Function `Exchanges::update` (src/orderbook.rs lines 150-162): replace the
incoming tick's exchange's cached bids and asks wholesale. -/
def Exchanges.update (s : Exchanges) (t : InTick) : Exchanges :=
  match t.exchange with
  | .bitstamp => { s with bitstamp := { bids := t.bids, asks := t.asks } }
  | .binance => { s with binance := { bids := t.bids, asks := t.asks } }

/-- Function `Exchanges::to_tick` (src/orderbook.rs lines 165-184): merge both
exchanges' bids, reverse, take `DEPTH`; merge both asks, take `DEPTH`;
spread is first ask price minus first bid price when both are present,
otherwise `dec!(0)`. -/
def Exchanges.to_tick (s : Exchanges) : OutTick :=
  let bids := ((merge s.bitstamp.bids s.binance.bids).reverse).take DEPTH
  let asks := (merge s.bitstamp.asks s.binance.asks).take DEPTH
  let spread :=
    match bids.head?, asks.head? with
    | some b, some a => a.price - b.price
    | _, _ => 0
  { spread := spread, bids := bids, asks := asks }

/-- Type `LevelsMap = BTreeMap<Decimal, Level>`, modelled as a key-sorted
association list. -/
def LevelsMap : Type := List (ℚ × Level)

/-- Operation `BTreeMap::insert`: keep keys sorted, overwrite an equal key. -/
def mapInsert (k : ℚ) (v : Level) : List (ℚ × Level) → List (ℚ × Level)
  | [] => [(k, v)]
  | (k0, v0) :: rest =>
    if k < k0 then (k, v) :: (k0, v0) :: rest
    else if k = k0 then (k, v) :: rest
    else (k0, v0) :: mapInsert k v rest

/-- Operation `BTreeMap::extend`: insert every entry of `other`, overwriting. -/
def mapExtend (m other : List (ℚ × Level)) : List (ℚ × Level) :=
  other.foldl (fun acc kv => mapInsert kv.1 kv.2 acc) m

/-- Function `ExtendAndKeep::extend_and_keep for LevelsMap` (src/orderbook.rs lines
219-228): extend with `other`, retain entries whose amount is nonzero, and
when more than `i` entries remain, `split_off` at the `i`-th smallest key —
i.e. keep the first `i` entries of the key-sorted list. -/
def extend_and_keep (m other : List (ℚ × Level)) (i : Nat) :
    List (ℚ × Level) :=
  let m1 := mapExtend m other
  let m2 := m1.filter fun kv => !(decide (kv.2.amount = 0))
  if i < m2.length then m2.take i else m2

/-- Struct `binance::Level` (a raw decoder level: price and amount). -/
structure BLevel where
  price : ℚ
  amount : ℚ
deriving DecidableEq, Repr

/-- Embeds `impl ToLevel for binance::Level` (src/binance.rs lines 23-27): tag
with the given side and `Exchange::Binance`. -/
def BLevel.to_level (l : BLevel) (side : Side) : Level :=
  { side := side, price := l.price, amount := l.amount, exchange := .binance }

/-- Function `ToLevels::to_levels for Vec<T>` (src/orderbook.rs lines 98-111): keep
the first `depth` elements when the input is longer, then map each to an
`orderbook::Level` with the given side. -/
def to_levels {T : Type} (toLevel : T → Side → Level) (self : List T)
    (side : Side) (depth : Nat) : List Level :=
  let levels := if depth < self.length then self.take depth else self
  levels.map fun l => toLevel l side

/-- Struct `binance::Event`. -/
structure Event where
  last_update_id : Nat
  bids : List BLevel
  asks : List BLevel
deriving DecidableEq, Repr

/-- Embeds `impl ToTick for binance::Event` (src/binance.rs lines 29-37): always
`Some`, with both sides truncated to `DEPTH` and tagged `Binance`. -/
def Event.maybe_to_tick (e : Event) : Option InTick :=
  some { exchange := .binance,
         bids := to_levels BLevel.to_level e.bids .bid DEPTH,
         asks := to_levels BLevel.to_level e.asks .ask DEPTH }

/-- Type `tungstenite::Message`: only the `Text` variant carries a payload the
Binance parser looks at. -/
inductive Message where
  | text (s : String)
  | binary
  | ping
  | pong
  | close
  | frame
deriving DecidableEq, Repr

/-- Function `binance::parse` (src/binance.rs lines 46-58): a text frame is
deserialized (an error propagates), everything else becomes `None`; the
optional event is then mapped through `maybe_to_tick` and flattened.  The
serde_json deserializer is an external call, passed as a parameter. -/
def parse (deserialize : String → Except String Event) (msg : Message) :
    Except String (Option InTick) :=
  let e : Except String (Option Event) :=
    match msg with
    | .text x => (deserialize x).map some
    | _ => .ok none
  e.map fun ev => ev.bind Event.maybe_to_tick

/-- Function `Connector::new` (src/ordermaster.rs lines 36-39): the watch channel is
created holding `OutTick::new()`; this is the broadcaster's value before
any publish. -/
def Connector.initialOutTick : OutTick := OutTick.new

/-! ## Order-theoretic facts about the level comparator -/

/-- Relation "does not compare `Greater`": the order `Vec::sort_unstable`
sorts ascending by. -/
def levelLe (a b : Level) : Prop := Level.cmp a b ≠ Ordering.gt

theorem qcmp_eq_lt_iff (a b : ℚ) : qcmp a b = Ordering.lt ↔ a < b := by
  rcases lt_trichotomy a b with h | h | h
  · simp [qcmp, h]
  · simp [qcmp, h]
  · simp [qcmp, h.asymm, ne_of_gt h]

theorem qcmp_eq_eq_iff (a b : ℚ) : qcmp a b = Ordering.eq ↔ a = b := by
  rcases lt_trichotomy a b with h | h | h
  · simp [qcmp, h, ne_of_lt h]
  · simp [qcmp, h]
  · simp [qcmp, h.asymm, ne_of_gt h]

theorem qcmp_eq_gt_iff (a b : ℚ) : qcmp a b = Ordering.gt ↔ b < a := by
  rcases lt_trichotomy a b with h | h | h
  · simp [qcmp, h, h.asymm]
  · simp [qcmp, h]
  · simp [qcmp, h.asymm, ne_of_gt h, h]

theorem qcmp_self (a : ℚ) : qcmp a a = Ordering.eq := by
  simp [qcmp]

/-- When prices differ, the level comparator is the price comparison,
whatever the sides. -/
theorem Level.cmp_of_price_ne {a b : Level} (h : a.price ≠ b.price) :
    Level.cmp a b = qcmp a.price b.price := by
  rcases hq : qcmp a.price b.price with _ | _ | _
  · cases hs : a.side <;> simp [Level.cmp, hq, hs]
  · exact absurd ((qcmp_eq_eq_iff _ _).1 hq) h
  · cases hs : a.side <;> simp [Level.cmp, hq, hs]

/-- A level never compares `Greater` to itself. -/
theorem Level.cmp_self (a : Level) : Level.cmp a a = Ordering.eq := by
  cases hs : a.side <;> simp [Level.cmp, qcmp_self, hs, Ordering.swap]

theorem levelLe_refl (a : Level) : levelLe a a := by
  simp [levelLe, Level.cmp_self a]

theorem levelLe_of_price_lt {a b : Level} (h : a.price < b.price) :
    levelLe a b := by
  have hne : a.price ≠ b.price := ne_of_lt h
  simp [levelLe, Level.cmp_of_price_ne hne, (qcmp_eq_lt_iff _ _).2 h]

theorem price_lt_of_levelLe {a b : Level} (hne : a.price ≠ b.price)
    (h : levelLe a b) : a.price < b.price := by
  rw [levelLe, Level.cmp_of_price_ne hne] at h
  rcases lt_trichotomy a.price b.price with hp | hp | hp
  · exact hp
  · exact absurd hp hne
  · exact absurd ((qcmp_eq_gt_iff _ _).2 hp) h

/-- Characterisation of the sort order on the bid side. -/
theorem levelLe_iff_bid {a b : Level} (hs : a.side = Side.bid) :
    levelLe a b ↔
      a.price < b.price ∨ (a.price = b.price ∧ a.amount ≤ b.amount) := by
  unfold levelLe
  rcases hq : qcmp a.price b.price with _ | _ | _
  · have hp := (qcmp_eq_lt_iff _ _).1 hq
    simp [Level.cmp, hq, hs, hp]
  · have hp := (qcmp_eq_eq_iff _ _).1 hq
    rcases ha : qcmp a.amount b.amount with _ | _ | _
    · have := (qcmp_eq_lt_iff _ _).1 ha
      simp [Level.cmp, hq, hs, ha, hp, qcmp_self, le_of_lt this]
    · have := (qcmp_eq_eq_iff _ _).1 ha
      simp [Level.cmp, hq, hs, ha, hp, qcmp_self, le_of_eq this]
    · have hlt := (qcmp_eq_gt_iff _ _).1 ha
      simp [Level.cmp, hq, hs, ha, hp, qcmp_self, not_le_of_lt hlt, lt_irrefl]
  · have hp := (qcmp_eq_gt_iff _ _).1 hq
    simp [Level.cmp, hq, hs, hp.asymm, ne_of_gt hp]

/-- Characterisation of the sort order on the ask side: on a price tie the
comparison of amounts is reversed, so the larger amount sorts first. -/
theorem levelLe_iff_ask {a b : Level} (hs : a.side = Side.ask) :
    levelLe a b ↔
      a.price < b.price ∨ (a.price = b.price ∧ b.amount ≤ a.amount) := by
  unfold levelLe
  rcases hq : qcmp a.price b.price with _ | _ | _
  · have hp := (qcmp_eq_lt_iff _ _).1 hq
    simp [Level.cmp, hq, hs, hp]
  · have hp := (qcmp_eq_eq_iff _ _).1 hq
    rcases ha : qcmp a.amount b.amount with _ | _ | _
    · have hlt := (qcmp_eq_lt_iff _ _).1 ha
      simp [Level.cmp, hq, hs, ha, Ordering.swap, hp, qcmp_self,
        not_le_of_lt hlt, lt_irrefl]
    · have := (qcmp_eq_eq_iff _ _).1 ha
      simp [Level.cmp, hq, hs, ha, Ordering.swap, hp, qcmp_self,
        le_of_eq this.symm]
    · have hlt := (qcmp_eq_gt_iff _ _).1 ha
      simp [Level.cmp, hq, hs, ha, Ordering.swap, hp, qcmp_self, le_of_lt hlt]
  · have hp := (qcmp_eq_gt_iff _ _).1 hq
    simp [Level.cmp, hq, hs, hp.asymm, ne_of_gt hp]

/-! ## The insertion sort: permutation and sortedness -/

theorem insertLe_perm (x : Level) (l : List Level) :
    List.Perm (insertLe x l) (x :: l) := by
  induction l with
  | nil => exact List.Perm.refl _
  | cons y ys ih =>
    by_cases hgt : Level.cmp x y = Ordering.gt
    · rw [insertLe, if_pos hgt]
      exact (ih.cons y).trans (List.Perm.swap x y ys)
    · rw [insertLe, if_neg hgt]

theorem sortLevels_perm (l : List Level) : List.Perm (sortLevels l) l := by
  induction l with
  | nil => exact List.Perm.refl _
  | cons x xs ih => exact (insertLe_perm x (sortLevels xs)).trans (ih.cons x)

theorem mem_sortLevels {l : List Level} {a : Level} (h : a ∈ sortLevels l) :
    a ∈ l :=
  (sortLevels_perm l).subset h

/-- Inserting into a sorted list keeps it sorted, provided the order is
total and transitive on a superset `S` of all the elements involved. -/
theorem insertLe_sorted (S : List Level)
    (htot : ∀ a ∈ S, ∀ b ∈ S, levelLe a b ∨ levelLe b a)
    (htrans : ∀ a ∈ S, ∀ b ∈ S, ∀ c ∈ S,
      levelLe a b → levelLe b c → levelLe a c)
    (x : Level) (hx : x ∈ S) :
    ∀ l : List Level, (∀ a ∈ l, a ∈ S) → l.Pairwise levelLe →
      (insertLe x l).Pairwise levelLe := by
  intro l
  induction l with
  | nil =>
    intro _ _
    simp [insertLe]
  | cons y ys ih =>
    intro hl hs
    have hy : y ∈ S := hl y (List.mem_cons_self y ys)
    have hys : ∀ a ∈ ys, a ∈ S := fun a ha => hl a (List.mem_cons_of_mem y ha)
    rcases List.pairwise_cons.1 hs with ⟨hyys, hsys⟩
    by_cases hgt : Level.cmp x y = Ordering.gt
    · rw [insertLe, if_pos hgt]
      refine List.pairwise_cons.2 ⟨?_, ih hys hsys⟩
      intro z hz
      rcases List.mem_cons.1 ((insertLe_perm x ys).subset hz) with hzx | hzys
      · rw [hzx]
        rcases htot x hx y hy with hxy | hyx
        · exact absurd hgt hxy
        · exact hyx
      · exact hyys z hzys
    · rw [insertLe, if_neg hgt]
      refine List.pairwise_cons.2 ⟨?_, hs⟩
      intro z hz
      rcases List.mem_cons.1 hz with hzy | hzys
      · rw [hzy]
        exact hgt
      · exact htrans x hx y hy z (hys z hzys) hgt (hyys z hzys)

theorem sortLevels_sorted (S : List Level)
    (htot : ∀ a ∈ S, ∀ b ∈ S, levelLe a b ∨ levelLe b a)
    (htrans : ∀ a ∈ S, ∀ b ∈ S, ∀ c ∈ S,
      levelLe a b → levelLe b c → levelLe a c) :
    ∀ l : List Level, (∀ a ∈ l, a ∈ S) → (sortLevels l).Pairwise levelLe := by
  intro l
  induction l with
  | nil =>
    intro _
    simp [sortLevels]
  | cons x xs ih =>
    intro hl
    have hx : x ∈ S := hl x (List.mem_cons_self x xs)
    have hxs : ∀ a ∈ xs, a ∈ S := fun a ha => hl a (List.mem_cons_of_mem x ha)
    exact insertLe_sorted S htot htrans x hx (sortLevels xs)
      (fun a ha => hxs a (mem_sortLevels ha)) (ih hxs)

/-! ## Totality and transitivity of the comparator on well-shaped lists -/

theorem tot_of_bid (S : List Level) (h : ∀ a ∈ S, a.side = Side.bid) :
    ∀ a ∈ S, ∀ b ∈ S, levelLe a b ∨ levelLe b a := by
  intro a ha b hb
  rw [levelLe_iff_bid (h a ha), levelLe_iff_bid (h b hb)]
  rcases lt_trichotomy a.price b.price with hp | hp | hp
  · exact Or.inl (Or.inl hp)
  · rcases le_total a.amount b.amount with hm | hm
    · exact Or.inl (Or.inr ⟨hp, hm⟩)
    · exact Or.inr (Or.inr ⟨hp.symm, hm⟩)
  · exact Or.inr (Or.inl hp)

theorem trans_of_bid (S : List Level) (h : ∀ a ∈ S, a.side = Side.bid) :
    ∀ a ∈ S, ∀ b ∈ S, ∀ c ∈ S, levelLe a b → levelLe b c → levelLe a c := by
  intro a ha b hb c hc hab hbc
  rw [levelLe_iff_bid (h a ha)] at hab ⊢
  rw [levelLe_iff_bid (h b hb)] at hbc
  rcases hab with hp | ⟨hp, hm⟩
  · rcases hbc with hq | ⟨hq, _⟩
    · exact Or.inl (hp.trans hq)
    · exact Or.inl (hq ▸ hp)
  · rcases hbc with hq | ⟨hq, hn⟩
    · exact Or.inl (hp ▸ hq)
    · exact Or.inr ⟨hp.trans hq, hm.trans hn⟩

theorem tot_of_ask (S : List Level) (h : ∀ a ∈ S, a.side = Side.ask) :
    ∀ a ∈ S, ∀ b ∈ S, levelLe a b ∨ levelLe b a := by
  intro a ha b hb
  rw [levelLe_iff_ask (h a ha), levelLe_iff_ask (h b hb)]
  rcases lt_trichotomy a.price b.price with hp | hp | hp
  · exact Or.inl (Or.inl hp)
  · rcases le_total a.amount b.amount with hm | hm
    · exact Or.inr (Or.inr ⟨hp.symm, hm⟩)
    · exact Or.inl (Or.inr ⟨hp, hm⟩)
  · exact Or.inr (Or.inl hp)

theorem trans_of_ask (S : List Level) (h : ∀ a ∈ S, a.side = Side.ask) :
    ∀ a ∈ S, ∀ b ∈ S, ∀ c ∈ S, levelLe a b → levelLe b c → levelLe a c := by
  intro a ha b hb c hc hab hbc
  rw [levelLe_iff_ask (h a ha)] at hab ⊢
  rw [levelLe_iff_ask (h b hb)] at hbc
  rcases hab with hp | ⟨hp, hm⟩
  · rcases hbc with hq | ⟨hq, _⟩
    · exact Or.inl (hp.trans hq)
    · exact Or.inl (hq ▸ hp)
  · rcases hbc with hq | ⟨hq, hn⟩
    · exact Or.inl (hp ▸ hq)
    · exact Or.inr ⟨hp.trans hq, hn.trans hm⟩

theorem tot_of_injprice (S : List Level)
    (hinj : ∀ a ∈ S, ∀ b ∈ S, a.price = b.price → a = b) :
    ∀ a ∈ S, ∀ b ∈ S, levelLe a b ∨ levelLe b a := by
  intro a ha b hb
  by_cases hab : a = b
  · exact Or.inl (hab ▸ levelLe_refl a)
  · have hp : a.price ≠ b.price := fun h => hab (hinj a ha b hb h)
    rcases lt_trichotomy a.price b.price with hq | hq | hq
    · exact Or.inl (levelLe_of_price_lt hq)
    · exact absurd hq hp
    · exact Or.inr (levelLe_of_price_lt hq)

theorem trans_of_injprice (S : List Level)
    (hinj : ∀ a ∈ S, ∀ b ∈ S, a.price = b.price → a = b) :
    ∀ a ∈ S, ∀ b ∈ S, ∀ c ∈ S, levelLe a b → levelLe b c → levelLe a c := by
  intro a ha b hb c hc hab hbc
  by_cases heab : a = b
  · exact heab ▸ hbc
  · by_cases hebc : b = c
    · exact hebc ▸ hab
    · have hpab : a.price ≠ b.price := fun h => heab (hinj a ha b hb h)
      have hpbc : b.price ≠ c.price := fun h => hebc (hinj b hb c hc h)
      have h1 := price_lt_of_levelLe hpab hab
      have h2 := price_lt_of_levelLe hpbc hbc
      exact levelLe_of_price_lt (h1.trans h2)

/-! ## Shape of the consolidated tick -/

theorem to_tick_bids (s : Exchanges) :
    (s.to_tick).bids =
      ((sortLevels (s.bitstamp.bids ++ s.binance.bids)).reverse).take DEPTH :=
  rfl

theorem to_tick_asks (s : Exchanges) :
    (s.to_tick).asks =
      (sortLevels (s.bitstamp.asks ++ s.binance.asks)).take DEPTH :=
  rfl

theorem to_tick_spread (s : Exchanges) :
    (s.to_tick).spread =
      match (s.to_tick).bids.head?, (s.to_tick).asks.head? with
      | some b, some a => a.price - b.price
      | _, _ => 0 :=
  rfl

theorem mem_bids_to_tick {s : Exchanges} {b : Level}
    (hb : b ∈ (s.to_tick).bids) : b ∈ s.bitstamp.bids ++ s.binance.bids := by
  rw [to_tick_bids] at hb
  exact (sortLevels_perm _).subset (List.mem_reverse.1 (List.mem_of_mem_take hb))

theorem mem_asks_to_tick {s : Exchanges} {a : Level}
    (ha : a ∈ (s.to_tick).asks) : a ∈ s.bitstamp.asks ++ s.binance.asks := by
  rw [to_tick_asks] at ha
  exact (sortLevels_perm _).subset (List.mem_of_mem_take ha)

/-- Keeping the last `n` elements of the ascending sort keeps exactly a set
of highest-priced levels, when prices are pairwise distinct. -/
theorem topk_high (L : List Level) (n : Nat)
    (hinj : ∀ a ∈ L, ∀ b ∈ L, a.price = b.price → a = b)
    (hlen : n < L.length) :
    ((sortLevels L).reverse.take n).length = n ∧
    ∀ x ∈ L, x ∉ (sortLevels L).reverse.take n →
      ∀ b ∈ (sortLevels L).reverse.take n, x.price < b.price := by
  have hsort : (sortLevels L).Pairwise levelLe :=
    sortLevels_sorted L (tot_of_injprice L hinj) (trans_of_injprice L hinj) L
      (fun a ha => ha)
  have hrev : ((sortLevels L).reverse).Pairwise (fun a b => levelLe b a) :=
    List.pairwise_reverse.2 hsort
  have hlenr : (sortLevels L).reverse.length = L.length := by
    rw [List.length_reverse, (sortLevels_perm L).length_eq]
  constructor
  · rw [List.length_take, hlenr]
    exact Nat.min_eq_left (Nat.le_of_lt hlen)
  · intro x hxL hxnot b hb
    have hxrev : x ∈ (sortLevels L).reverse :=
      List.mem_reverse.2 ((sortLevels_perm L).mem_iff.2 hxL)
    have hsplit := List.take_append_drop n ((sortLevels L).reverse)
    have hxtd :
        x ∈ (sortLevels L).reverse.take n ++ (sortLevels L).reverse.drop n := by
      rw [hsplit]
      exact hxrev
    have hxdrop : x ∈ (sortLevels L).reverse.drop n := by
      rcases List.mem_append.1 hxtd with h | h
      · exact absurd h hxnot
      · exact h
    have hpw :
        ((sortLevels L).reverse.take n ++
          (sortLevels L).reverse.drop n).Pairwise (fun a b => levelLe b a) := by
      rw [hsplit]
      exact hrev
    have hle : levelLe x b := (List.pairwise_append.1 hpw).2.2 b hb x hxdrop
    have hbL : b ∈ L :=
      (sortLevels_perm L).subset (List.mem_reverse.1 (List.mem_of_mem_take hb))
    have hpne : x.price ≠ b.price := fun h => hxnot (by
      rw [hinj x hxL b hbL h]
      exact hb)
    exact price_lt_of_levelLe hpne hle

/-- Keeping the first `n` elements of the ascending sort keeps exactly a set
of lowest-priced levels, when prices are pairwise distinct. -/
theorem topk_low (L : List Level) (n : Nat)
    (hinj : ∀ a ∈ L, ∀ b ∈ L, a.price = b.price → a = b)
    (hlen : n < L.length) :
    ((sortLevels L).take n).length = n ∧
    ∀ x ∈ L, x ∉ (sortLevels L).take n →
      ∀ a ∈ (sortLevels L).take n, a.price < x.price := by
  have hsort : (sortLevels L).Pairwise levelLe :=
    sortLevels_sorted L (tot_of_injprice L hinj) (trans_of_injprice L hinj) L
      (fun a ha => ha)
  have hlens : (sortLevels L).length = L.length := (sortLevels_perm L).length_eq
  constructor
  · rw [List.length_take, hlens]
    exact Nat.min_eq_left (Nat.le_of_lt hlen)
  · intro x hxL hxnot a ha
    have hxs : x ∈ sortLevels L := (sortLevels_perm L).mem_iff.2 hxL
    have hsplit := List.take_append_drop n (sortLevels L)
    have hxtd : x ∈ (sortLevels L).take n ++ (sortLevels L).drop n := by
      rw [hsplit]
      exact hxs
    have hxdrop : x ∈ (sortLevels L).drop n := by
      rcases List.mem_append.1 hxtd with h | h
      · exact absurd h hxnot
      · exact h
    have hpw :
        ((sortLevels L).take n ++ (sortLevels L).drop n).Pairwise levelLe := by
      rw [hsplit]
      exact hsort
    have hle : levelLe a x := (List.pairwise_append.1 hpw).2.2 a ha x hxdrop
    have haL : a ∈ L := (sortLevels_perm L).subset (List.mem_of_mem_take ha)
    have hpne : a.price ≠ x.price := fun h => hxnot (by
      rw [← hinj a haL x hxL h]
      exact ha)
    exact price_lt_of_levelLe hpne hle

/-! ## Claims -/

/-- Concrete zero-amount level for refuting claim C1. -/
def c1Level : Level :=
  { side := .bid, price := 100, amount := 0, exchange := .binance }

/-- Concrete aggregator state caching the zero-amount level. -/
def c1State : Exchanges :=
  { bitstamp := OrderDepths.new, binance := { bids := [c1Level], asks := [] } }

/-- C1 (counterexample): the claim says every level in the `OutTick` of
`Exchanges::to_tick` has nonzero amount because zero-amount levels are
filtered before merging.  In fact `to_tick` merges the cached lists with no
filtering, so a cached level of amount 0 appears in the output. -/
theorem c1_counterexample :
    ∃ l ∈ (Exchanges.to_tick c1State).bids, l.amount = 0 := by
  decide

/-- C1 (amended): the only zero-amount filtering in the codebase is in the
map-based `ExtendAndKeep::extend_and_keep`, which `to_tick` does not use:
every entry that `extend_and_keep` returns has amount different from 0. -/
theorem c1_extend_and_keep_filters (m other : List (ℚ × Level)) (i : Nat) :
    ∀ kv ∈ extend_and_keep m other i, kv.2.amount ≠ 0 := by
  intro kv hkv
  simp only [extend_and_keep] at hkv
  split at hkv
  · have hmem := List.mem_of_mem_take hkv
    have h := (List.mem_filter.1 hmem).2
    simpa using h
  · have h := (List.mem_filter.1 hkv).2
    simpa using h

/-- Concrete nonzero-amount level for the C1 witness. -/
def c1wLevel : Level :=
  { side := .bid, price := 1, amount := 3, exchange := .bitstamp }

/-- Witness for the amended C1 theorem at a concrete map. -/
theorem c1_filters_witness :
    ((1 : ℚ), c1wLevel) ∈ extend_and_keep [] [((1 : ℚ), c1wLevel)] 5 ∧
    (((1 : ℚ), c1wLevel) : ℚ × Level).2.amount ≠ 0 :=
  ⟨by decide,
   c1_extend_and_keep_filters [] [((1 : ℚ), c1wLevel)] 5 ((1 : ℚ), c1wLevel)
     (by decide)⟩

/-- Bid level on bitstamp used to refute claim C2. -/
def c2Bitstamp : Level :=
  { side := .bid, price := 100, amount := 5, exchange := .bitstamp }

/-- Same price and amount on binance, for the C2 counterexample. -/
def c2Binance : Level :=
  { side := .bid, price := 100, amount := 5, exchange := .binance }

/-- C2 (counterexample): the claim says the level ordering breaks
price-and-amount ties by exchange identity, making the ordering total.  In
fact two distinct levels agreeing on price and amount but differing in
exchange compare `Equal` in both directions: the exchange is never used as
a secondary key and the order does not separate them. -/
theorem c2_counterexample :
    Level.cmp c2Bitstamp c2Binance = Ordering.eq ∧
    Level.cmp c2Binance c2Bitstamp = Ordering.eq ∧
    c2Bitstamp.exchange ≠ c2Binance.exchange ∧
    c2Bitstamp ≠ c2Binance := by
  decide

/-- C2 (amended): the level ordering of `impl Ord for Level` compares price
and then amount only; any two levels with equal price and equal amount
compare `Equal` whatever their exchanges, and the comparison result never
depends on the exchange field. -/
theorem c2_cmp_ignores_exchange :
    (∀ l1 l2 : Level, l1.price = l2.price → l1.amount = l2.amount →
      Level.cmp l1 l2 = Ordering.eq)
    ∧ (∀ (l1 l2 : Level) (e : Exchange),
      Level.cmp { l1 with exchange := e } l2 = Level.cmp l1 l2) := by
  constructor
  · intro l1 l2 hp hm
    cases hs : l1.side <;>
      simp [Level.cmp, hs, hp, hm, qcmp_self, Ordering.swap]
  · intro l1 l2 e
    rfl

/-- Witness for the amended C2 theorem at concrete levels. -/
theorem c2_witness :
    Level.cmp { side := .ask, price := 2, amount := 3, exchange := .bitstamp }
      { side := .ask, price := 2, amount := 3, exchange := .binance } =
      Ordering.eq :=
  c2_cmp_ignores_exchange.1 _ _ rfl rfl

/-- C4: the spread of `Exchanges::to_tick` is the first ask price minus the
first bid price when both merged sides are non-empty (crossed books are not
rejected, so the value may be negative or zero), and 0 when either side is
empty. -/
theorem c4_spread_rule (s : Exchanges) :
    (∀ b a : Level, (s.to_tick).bids.head? = some b →
        (s.to_tick).asks.head? = some a →
        (s.to_tick).spread = a.price - b.price)
    ∧ (((s.to_tick).bids = [] ∨ (s.to_tick).asks = []) →
        (s.to_tick).spread = 0) := by
  constructor
  · intro b a hb ha
    rw [to_tick_spread, hb, ha]
  · intro hemp
    rw [to_tick_spread]
    rcases hemp with he | he
    · rw [he]
      rfl
    · rw [he]
      cases hb2 : (s.to_tick).bids.head? with
      | none => rfl
      | some b => rfl

/-- Best bid of the crossed-book witness state for C4. -/
def c4Bid : Level :=
  { side := .bid, price := 100, amount := 1, exchange := .bitstamp }

/-- Best ask of the crossed-book witness state for C4, priced below the bid. -/
def c4Ask : Level :=
  { side := .ask, price := 99, amount := 1, exchange := .bitstamp }

/-- Crossed-book witness state for C4. -/
def c4State : Exchanges :=
  { bitstamp := { bids := [c4Bid], asks := [c4Ask] },
    binance := OrderDepths.new }

/-- Witness for the C4 theorem: on a crossed book the emitted spread is
the (negative) difference of the best prices. -/
theorem c4_witness :
    (c4State.to_tick).bids.head? = some c4Bid ∧
    (c4State.to_tick).asks.head? = some c4Ask ∧
    (c4State.to_tick).spread = c4Ask.price - c4Bid.price :=
  ⟨by decide, by decide,
   (c4_spread_rule c4State).1 c4Bid c4Ask (by decide) (by decide)⟩

/-- C6: `Exchanges::update` replaces the incoming exchange's cached bids
and asks wholesale with the tick's lists (so a tick with empty sides wipes
that exchange's contribution) and leaves the other exchange's cache
untouched. -/
theorem c6_update_frame (s : Exchanges) (t : InTick) :
    (t.exchange = Exchange.bitstamp →
      (s.update t).bitstamp = { bids := t.bids, asks := t.asks } ∧
      (s.update t).binance = s.binance)
    ∧ (t.exchange = Exchange.binance →
      (s.update t).binance = { bids := t.bids, asks := t.asks } ∧
      (s.update t).bitstamp = s.bitstamp) := by
  rcases t with ⟨ex, b, a⟩
  cases ex <;> simp [Exchanges.update]

/-- Witness tick for C6: an empty-sided bitstamp tick. -/
def c6Tick : InTick := { exchange := .bitstamp, bids := [], asks := [] }

/-- Witness state for C6. -/
def c6State : Exchanges :=
  { bitstamp := { bids := [c2Bitstamp], asks := [] },
    binance := { bids := [c2Binance], asks := [] } }

/-- Witness for the C6 theorem: the empty tick wipes the bitstamp cache and
leaves the binance cache unchanged. -/
theorem c6_witness :
    (c6State.update c6Tick).bitstamp =
      { bids := c6Tick.bids, asks := c6Tick.asks } ∧
    (c6State.update c6Tick).binance = c6State.binance :=
  (c6_update_frame c6State c6Tick).1 rfl

/-- C8: updating with the same `InTick` twice and consolidating gives the
same `OutTick` as updating once — `update` overwrites, so it is idempotent
and the published outputs coincide. -/
theorem c8_idempotent (s : Exchanges) (t : InTick) :
    ((s.update t).update t).to_tick = (s.update t).to_tick := by
  have h : (s.update t).update t = s.update t := by
    rcases t with ⟨ex, b, a⟩
    cases ex <;> rfl
  rw [h]

/-- C9: the broadcaster's initial value (`OutTick::new` as installed by
`Connector::new`) has zero spread and empty sides, and coincides with
`Exchanges::to_tick` of a freshly created empty `Exchanges`. -/
theorem c9_initial_out_tick :
    Connector.initialOutTick.spread = 0 ∧
    Connector.initialOutTick.bids = [] ∧
    Connector.initialOutTick.asks = [] ∧
    Connector.initialOutTick = Exchanges.new.to_tick := by
  exact ⟨rfl, rfl, rfl, rfl⟩

/-- Lower-amount equal-price ask for refuting claim C5. -/
def c5AskSmall : Level :=
  { side := .ask, price := 100, amount := 2, exchange := .bitstamp }

/-- Higher-amount equal-price ask for refuting claim C5. -/
def c5AskBig : Level :=
  { side := .ask, price := 100, amount := 5, exchange := .binance }

/-- State holding the two equal-priced asks for the C5 counterexample. -/
def c5State : Exchanges :=
  { bitstamp := { bids := [], asks := [c5AskSmall] },
    binance := { bids := [], asks := [c5AskBig] } }

/-- C5 (counterexample): the claim says asks of equal price are emitted
smaller amount first.  In fact `impl Ord for Level` reverses the amount
comparison on the ask side, so the ascending sort puts the larger amount
first: with two asks at price 100 and amounts 2 and 5 the emitted ask list
is the amount-5 level followed by the amount-2 level. -/
theorem c5_counterexample :
    (Exchanges.to_tick c5State).asks = [c5AskBig, c5AskSmall] ∧
    c5AskBig.price = c5AskSmall.price ∧
    c5AskSmall.amount < c5AskBig.amount := by
  decide

/-! ## Decoder lemmas -/

theorem to_levels_eq {T : Type} (toLevel : T → Side → Level) (self : List T)
    (side : Side) (depth : Nat) :
    to_levels toLevel self side depth =
      (self.take depth).map (fun l => toLevel l side) := by
  unfold to_levels
  by_cases h : depth < self.length
  · rw [if_pos h]
  · rw [if_neg h, List.take_of_length_le (Nat.le_of_not_lt h)]

theorem to_levels_length {T : Type} (toLevel : T → Side → Level)
    (self : List T) (side : Side) (depth : Nat) :
    (to_levels toLevel self side depth).length ≤ depth := by
  rw [to_levels_eq, List.length_map, List.length_take]
  exact min_le_left _ _

/-- C7: `to_levels` keeps exactly the first `depth` input levels (all of
them when the input is shorter), in order, tagging each with the given
side; the Binance decoder truncates both sides to `DEPTH` and tags every
produced level with `Exchange::Binance`. -/
theorem c7_to_levels_truncates :
    (∀ {T : Type} (toLevel : T → Side → Level) (self : List T) (side : Side)
        (depth : Nat),
      to_levels toLevel self side depth =
        (self.take depth).map (fun l => toLevel l side) ∧
      (to_levels toLevel self side depth).length ≤ depth)
    ∧ (∀ e : Event, ∃ t, e.maybe_to_tick = some t ∧
        t.bids = to_levels BLevel.to_level e.bids .bid DEPTH ∧
        t.asks = to_levels BLevel.to_level e.asks .ask DEPTH ∧
        (∀ l ∈ t.bids, l.exchange = Exchange.binance ∧ l.side = Side.bid) ∧
        (∀ l ∈ t.asks, l.exchange = Exchange.binance ∧ l.side = Side.ask) ∧
        t.bids.length ≤ DEPTH ∧ t.asks.length ≤ DEPTH) := by
  have hfields : ∀ (self : List BLevel) (side : Side) (depth : Nat),
      ∀ l ∈ to_levels BLevel.to_level self side depth,
        l.exchange = Exchange.binance ∧ l.side = side := by
    intro self side depth l hl
    rw [to_levels_eq] at hl
    rcases List.mem_map.1 hl with ⟨b, _, rfl⟩
    exact ⟨rfl, rfl⟩
  constructor
  · intro T toLevel self side depth
    exact ⟨to_levels_eq toLevel self side depth,
      to_levels_length toLevel self side depth⟩
  · intro e
    refine ⟨_, rfl, rfl, rfl, ?_, ?_, ?_, ?_⟩
    · exact hfields e.bids .bid DEPTH
    · exact hfields e.asks .ask DEPTH
    · exact to_levels_length BLevel.to_level e.bids .bid DEPTH
    · exact to_levels_length BLevel.to_level e.asks .ask DEPTH

/-- Concrete decoder level exercising the C7 witness. -/
def c7BLevel : BLevel := { price := 7, amount := 2 }

/-- Witness for the C7 theorem at a concrete one-level list. -/
theorem c7_witness :
    to_levels BLevel.to_level [c7BLevel] Side.bid DEPTH =
      ([c7BLevel].take DEPTH).map (fun l => l.to_level Side.bid) ∧
    (to_levels BLevel.to_level [c7BLevel] Side.bid DEPTH).length ≤ DEPTH :=
  c7_to_levels_truncates.1 BLevel.to_level [c7BLevel] Side.bid DEPTH

/-! ## Parse lemmas -/

theorem parse_text_eq (d : String → Except String Event) (x : String) :
    parse d (Message.text x) =
      match d x with
      | .ok ev => .ok (Event.maybe_to_tick ev)
      | .error err => .error err := by
  show Except.map _ (Except.map some (d x)) = _
  cases hd : d x with
  | ok ev => rfl
  | error err => rfl

/-- C10: `binance::parse` yields `Ok(None)` exactly on non-text frames; a
text frame either fails deserialization (an error) or yields
`Ok(Some(InTick))` — `maybe_to_tick` never returns `None`, so a
successfully deserialized text frame is never dropped as administrative. -/
theorem c10_parse_frames (deserialize : String → Except String Event)
    (msg : Message) :
    (parse deserialize msg = .ok none ↔ ∀ x, msg ≠ Message.text x)
    ∧ (∀ x, msg = Message.text x →
        (∃ err, parse deserialize msg = .error err) ∨
        (∃ t, parse deserialize msg = .ok (some t))) := by
  cases msg with
  | text x =>
    constructor
    · constructor
      · intro h
        exfalso
        rw [parse_text_eq] at h
        cases hd : deserialize x with
        | ok ev =>
          rw [hd] at h
          simp [Event.maybe_to_tick] at h
        | error err =>
          rw [hd] at h
          simp at h
      · intro h
        exact absurd rfl (h x)
    · intro x0 h
      rw [parse_text_eq]
      cases hd : deserialize x with
      | ok ev =>
        right
        exact ⟨_, rfl⟩
      | error err =>
        left
        exact ⟨err, rfl⟩
  | binary =>
    exact ⟨⟨fun _ x h => Message.noConfusion h, fun _ => rfl⟩,
      fun x0 h => Message.noConfusion h⟩
  | ping =>
    exact ⟨⟨fun _ x h => Message.noConfusion h, fun _ => rfl⟩,
      fun x0 h => Message.noConfusion h⟩
  | pong =>
    exact ⟨⟨fun _ x h => Message.noConfusion h, fun _ => rfl⟩,
      fun x0 h => Message.noConfusion h⟩
  | close =>
    exact ⟨⟨fun _ x h => Message.noConfusion h, fun _ => rfl⟩,
      fun x0 h => Message.noConfusion h⟩
  | frame =>
    exact ⟨⟨fun _ x h => Message.noConfusion h, fun _ => rfl⟩,
      fun x0 h => Message.noConfusion h⟩

/-- Deserializer that always rejects, for the C10 witness. -/
def c10Deser : String → Except String Event := fun _ => .error "malformed"

/-- Witness for the C10 theorem: a binary frame maps to `Ok(None)`, and a
text frame through the rejecting deserializer surfaces an error or a
tick. -/
theorem c10_witness :
    parse c10Deser Message.binary = .ok none ∧
    ((∃ err, parse c10Deser (Message.text "x") = .error err) ∨
     (∃ t, parse c10Deser (Message.text "x") = .ok (some t))) :=
  ⟨(c10_parse_frames c10Deser Message.binary).1.mpr
     (fun _ h => Message.noConfusion h),
   (c10_parse_frames c10Deser (Message.text "x")).2 "x" rfl⟩

/-- C3: every consolidated tick has at most `DEPTH` bids and at most
`DEPTH` asks; when the concatenated per-exchange lists hold more than
`DEPTH` levels at pairwise distinct prices, the output side has exactly
`DEPTH` levels, drawn from the inputs, and every excluded input level is
strictly worse (lower-priced than every output bid, higher-priced than
every output ask). -/
theorem c3_depth_and_topk (s : Exchanges) :
    ((s.to_tick).bids.length ≤ DEPTH ∧ (s.to_tick).asks.length ≤ DEPTH)
    ∧ ((∀ a ∈ s.bitstamp.bids ++ s.binance.bids,
          ∀ b ∈ s.bitstamp.bids ++ s.binance.bids,
          a.price = b.price → a = b) →
        DEPTH < (s.bitstamp.bids ++ s.binance.bids).length →
        (s.to_tick).bids.length = DEPTH ∧
        (∀ b ∈ (s.to_tick).bids, b ∈ s.bitstamp.bids ++ s.binance.bids) ∧
        (∀ x ∈ s.bitstamp.bids ++ s.binance.bids, x ∉ (s.to_tick).bids →
          ∀ b ∈ (s.to_tick).bids, x.price < b.price))
    ∧ ((∀ a ∈ s.bitstamp.asks ++ s.binance.asks,
          ∀ b ∈ s.bitstamp.asks ++ s.binance.asks,
          a.price = b.price → a = b) →
        DEPTH < (s.bitstamp.asks ++ s.binance.asks).length →
        (s.to_tick).asks.length = DEPTH ∧
        (∀ a ∈ (s.to_tick).asks, a ∈ s.bitstamp.asks ++ s.binance.asks) ∧
        (∀ x ∈ s.bitstamp.asks ++ s.binance.asks, x ∉ (s.to_tick).asks →
          ∀ a ∈ (s.to_tick).asks, a.price < x.price)) := by
  refine ⟨⟨?_, ?_⟩, ?_, ?_⟩
  · rw [to_tick_bids]
    exact List.length_take_le _ _
  · rw [to_tick_asks]
    exact List.length_take_le _ _
  · intro hinj hlen
    have h := topk_high (s.bitstamp.bids ++ s.binance.bids) DEPTH hinj hlen
    refine ⟨?_, fun b hb => mem_bids_to_tick hb, ?_⟩
    · rw [to_tick_bids]
      exact h.1
    · intro x hx hxnot b hb
      rw [to_tick_bids] at hxnot hb
      exact h.2 x hx hxnot b hb
  · intro hinj hlen
    have h := topk_low (s.bitstamp.asks ++ s.binance.asks) DEPTH hinj hlen
    refine ⟨?_, fun a ha => mem_asks_to_tick ha, ?_⟩
    · rw [to_tick_asks]
      exact h.1
    · intro x hx hxnot a ha
      rw [to_tick_asks] at hxnot ha
      exact h.2 x hx hxnot a ha

/-- Eleven bids at distinct prices for the C3 witness. -/
def c3Bids : List Level :=
  [⟨.bid, 1, 1, .bitstamp⟩, ⟨.bid, 2, 1, .bitstamp⟩, ⟨.bid, 3, 1, .bitstamp⟩,
   ⟨.bid, 4, 1, .bitstamp⟩, ⟨.bid, 5, 1, .bitstamp⟩, ⟨.bid, 6, 1, .bitstamp⟩,
   ⟨.bid, 7, 1, .binance⟩, ⟨.bid, 8, 1, .binance⟩, ⟨.bid, 9, 1, .binance⟩,
   ⟨.bid, 10, 1, .binance⟩, ⟨.bid, 11, 1, .binance⟩]

/-- Witness state for C3: more than `DEPTH` distinct-priced bids. -/
def c3State : Exchanges :=
  { bitstamp := { bids := c3Bids, asks := [] }, binance := OrderDepths.new }

/-- Witness for the C3 theorem at a concrete 11-bid state. -/
theorem c3_witness :
    (∀ a ∈ c3State.bitstamp.bids ++ c3State.binance.bids,
       ∀ b ∈ c3State.bitstamp.bids ++ c3State.binance.bids,
       a.price = b.price → a = b) ∧
    DEPTH < (c3State.bitstamp.bids ++ c3State.binance.bids).length ∧
    ((c3State.to_tick).bids.length = DEPTH ∧
     (∀ b ∈ (c3State.to_tick).bids,
        b ∈ c3State.bitstamp.bids ++ c3State.binance.bids) ∧
     (∀ x ∈ c3State.bitstamp.bids ++ c3State.binance.bids,
        x ∉ (c3State.to_tick).bids →
        ∀ b ∈ (c3State.to_tick).bids, x.price < b.price)) :=
  ⟨by decide, by decide,
   (c3_depth_and_topk c3State).2.1 (by decide) (by decide)⟩

/-- C5 (amended): in every consolidated tick built from well-shaped caches
(bid lists hold bid-side levels, ask lists ask-side levels) the bids are
sorted non-increasing in price with, on a price tie, the larger amount
first; the asks are sorted non-decreasing in price with, on a price tie,
the larger amount first as well — not the smaller, because `impl Ord for
Level` reverses the amount comparison on the ask side. -/
theorem c5_output_sorted (s : Exchanges)
    (hb : ∀ l ∈ s.bitstamp.bids ++ s.binance.bids, l.side = Side.bid)
    (ha : ∀ l ∈ s.bitstamp.asks ++ s.binance.asks, l.side = Side.ask) :
    (s.to_tick).bids.Pairwise
      (fun x y => y.price < x.price ∨
        (y.price = x.price ∧ y.amount ≤ x.amount))
    ∧ (s.to_tick).asks.Pairwise
      (fun x y => x.price < y.price ∨
        (x.price = y.price ∧ y.amount ≤ x.amount)) := by
  constructor
  · rw [to_tick_bids]
    have hsort :
        (sortLevels (s.bitstamp.bids ++ s.binance.bids)).Pairwise levelLe :=
      sortLevels_sorted _ (tot_of_bid _ hb) (trans_of_bid _ hb) _
        (fun a h => h)
    have hrev := List.pairwise_reverse.2 hsort
    have htake :
        (((sortLevels (s.bitstamp.bids ++ s.binance.bids)).reverse).take
          DEPTH).Pairwise (fun x y => levelLe y x) :=
      hrev.sublist (List.take_sublist _ _)
    refine List.Pairwise.imp_of_mem ?_ htake
    intro x y hx hy hxy
    have hyL : y ∈ s.bitstamp.bids ++ s.binance.bids :=
      (sortLevels_perm _).subset
        (List.mem_reverse.1 (List.mem_of_mem_take hy))
    exact (levelLe_iff_bid (hb y hyL)).1 hxy
  · rw [to_tick_asks]
    have hsort :
        (sortLevels (s.bitstamp.asks ++ s.binance.asks)).Pairwise levelLe :=
      sortLevels_sorted _ (tot_of_ask _ ha) (trans_of_ask _ ha) _
        (fun a h => h)
    have htake :
        ((sortLevels (s.bitstamp.asks ++ s.binance.asks)).take
          DEPTH).Pairwise levelLe :=
      hsort.sublist (List.take_sublist _ _)
    refine List.Pairwise.imp_of_mem ?_ htake
    intro x y hx hy hxy
    have hxL : x ∈ s.bitstamp.asks ++ s.binance.asks :=
      (sortLevels_perm _).subset (List.mem_of_mem_take hx)
    exact (levelLe_iff_ask (ha x hxL)).1 hxy

/-- Witness state for C5: well-shaped bids and asks on both exchanges. -/
def c5wState : Exchanges :=
  { bitstamp := { bids := [⟨.bid, 3, 1, .bitstamp⟩],
                  asks := [⟨.ask, 4, 1, .bitstamp⟩] },
    binance := { bids := [⟨.bid, 2, 1, .binance⟩],
                 asks := [⟨.ask, 5, 2, .binance⟩] } }

/-- Witness for the amended C5 theorem at a concrete two-exchange state. -/
theorem c5_witness :
    (∀ l ∈ c5wState.bitstamp.bids ++ c5wState.binance.bids,
      l.side = Side.bid) ∧
    (∀ l ∈ c5wState.bitstamp.asks ++ c5wState.binance.asks,
      l.side = Side.ask) ∧
    ((c5wState.to_tick).bids.Pairwise
      (fun x y => y.price < x.price ∨
        (y.price = x.price ∧ y.amount ≤ x.amount)) ∧
     (c5wState.to_tick).asks.Pairwise
      (fun x y => x.price < y.price ∨
        (x.price = y.price ∧ y.amount ≤ x.amount))) :=
  ⟨by decide, by decide, c5_output_sorted c5wState (by decide) (by decide)⟩

end OrderMaster
